import Mathlib

/-!
Shallow embedding of `src/simple-vector/simple_vector.h` (template class
`SimpleVector<Type>` plus its free comparison operators), used to check the
natural-language specification of the repository against the code.

Modelling conventions:

* A `SimpleVector<Type>` object is a triple of its data members
  `size_ : size_t`, `capacity_ : size_t` and `items_ : ArrayPtr<Type>`.
  Machine `size_t` values stay far below `2^64` in every claim, so they are
  modelled by `Nat`; the owned allocation `items_` is modelled by the list of
  the raw slot values it holds, so `items_.length` is the number of slots the
  allocation actually owns.
* `ArrayPtr<Type>` itself is not under `src/`; it is the storage collaborator
  the spec describes (`allocate(n)` yields `n` default-valued slots, `swap`
  exchanges ownership, `Get()` exposes the slots).  Allocating `n` slots is
  modelled by `List.replicate n default`; `Inhabited α` supplies the
  default-constructed value `Type()`.
* A C++ member function that mutates `*this` becomes a function from the old
  state to the new state.  A function that can throw `std::out_of_range`
  or hit a failed `assert` returns an `Outcome`: `ok` for a normal return,
  `thrownOutOfRange` for the exception, `assertTrap` for an assertion
  failure (a precondition violation; in a release build the behaviour would
  be undefined, so no state is produced).
* Iterators are pointers into the allocation; an iterator argument or result
  is modelled by its index relative to `begin()`.
* Reads of a slot (`items_[i]`) are `slotGet`, which returns the default
  value beyond the allocation (such a read is undefined behaviour in C++ and
  never decides a claim); writes beyond the allocation are dropped by
  `List.set`, again only reachable through undefined behaviour.
* `std::move` of a trivially copyable element leaves the source value in
  place, so moves of elements are modelled as copies; every claim is stated
  over `Nat` elements.
-/

/-- Result of calling a C++ member function: a normal return, a thrown
`std::out_of_range`, or a failed `assert` (precondition violation). -/
inductive Outcome (σ : Type) where
  | ok : σ → Outcome σ
  | thrownOutOfRange : Outcome σ
  | assertTrap : Outcome σ
deriving DecidableEq, Repr

/-- The data members of `SimpleVector<Type>`: `size_`, `capacity_`, and the
owned allocation `items_` given as the list of its raw slot values. -/
structure SimpleVector (α : Type) where
  size_ : Nat
  capacity_ : Nat
  items_ : List α
deriving DecidableEq, Repr

namespace SimpleVector

variable {α : Type} [Inhabited α]

/-- `ArrayPtr<Type>(n)` followed by writing the elements of `l` into the
first `l.length` slots: the remaining slots keep their default value.
(All `n` slots are default-constructed on allocation.) -/
def padTo (n : Nat) (l : List α) : List α :=
  l ++ List.replicate (n - l.length) (default : α)

/-- Default constructor: `size_ = 0`, `capacity_ = 0`, no storage. -/
def empty : SimpleVector α := ⟨0, 0, []⟩

/-- `SimpleVector(size_t size)`: `size` slots, each assigned `Type()`. -/
def mkSized (size : Nat) : SimpleVector α :=
  ⟨size, size, List.replicate size (default : α)⟩

/-- `SimpleVector(size_t size, const Type& value)`: `size` slots, each
assigned `value` by the constructor's loop. -/
def mkFilled (size : Nat) (value : α) : SimpleVector α :=
  ⟨size, size, List.replicate size value⟩

/-- `SimpleVector(std::initializer_list<Type> init)`: `init.size()` slots,
copied from `init` in order. -/
def fromList (init : List α) : SimpleVector α :=
  ⟨init.length, init.length, init⟩

/-- Copy constructor `SimpleVector(const SimpleVector& other)`: initialises
`size_(other.size_)`, `capacity_(other.capacity_)`, `items_(other.size_)`
— an allocation of `other.size_` slots — then copies `[other.begin(),
other.end())` into it.  Note the member initialiser list copies
`other.capacity_` even though only `other.size_` slots are allocated. -/
def copyCtor (other : SimpleVector α) : SimpleVector α :=
  ⟨other.size_, other.capacity_, padTo other.size_ (other.items_.take other.size_)⟩

/-- Move constructor: `std::exchange` zeroes the source's `size_` and
`capacity_`, and the default-constructed (empty) `items_` is swapped with the
source's.  Returns (new object, moved-from source). -/
def moveCtor (moved : SimpleVector α) : SimpleVector α × SimpleVector α :=
  (⟨moved.size_, moved.capacity_, moved.items_⟩, ⟨0, 0, []⟩)

/-- `SimpleVector(const ReserveProxyObj&)`: `capacity_(reserved.capacity)`
and an allocation of `reserved.capacity` slots; `size_` keeps its default 0. -/
def mkReserved (capacity : Nat) : SimpleVector α :=
  ⟨0, capacity, List.replicate capacity (default : α)⟩

/-- `GetSize()`. -/
def GetSize (v : SimpleVector α) : Nat := v.size_

/-- `GetCapacity()`. -/
def GetCapacity (v : SimpleVector α) : Nat := v.capacity_

/-- `IsEmpty()`. -/
def IsEmpty (v : SimpleVector α) : Bool := v.size_ == 0

/-- The live elements, the range `[begin(), end())`, i.e. the first `size_`
slots of the allocation. -/
def elems (v : SimpleVector α) : List α := v.items_.take v.size_

/-- Raw slot read `items_[i]` (through `ArrayPtr::operator[]`); a read past
the allocation is undefined behaviour and is modelled by the default value. -/
def slotGet (v : SimpleVector α) (i : Nat) : α := v.items_.getD i (default : α)

/-- Class invariant the code maintains everywhere outside the copy-constructor
slip: the allocation owns exactly `capacity_` slots and `size_ ≤ capacity_`. -/
def wf (v : SimpleVector α) : Prop :=
  v.size_ ≤ v.capacity_ ∧ v.items_.length = v.capacity_

instance (v : SimpleVector α) : Decidable (wf v) := by
  unfold wf; infer_instance

/-- `Reserve(new_capacity)`: when `new_capacity > capacity_`, build
`SimpleVector temp_vector(new_capacity)` (an allocation of `new_capacity`
default slots), `std::copy` the live range into its front, then swap
`capacity_` and `items_` with it; `size_` is untouched.  Otherwise no-op. -/
def Reserve (v : SimpleVector α) (new_capacity : Nat) : SimpleVector α :=
  if v.capacity_ < new_capacity then
    ⟨v.size_, new_capacity, padTo new_capacity (v.items_.take v.size_)⟩
  else v

/-- `PushBack(const Type& item)`: when full, `Reserve(capacity_ == 0 ? 1 :
capacity_ * 2)`; then `*end() = item; ++size_;`. -/
def PushBack (v : SimpleVector α) (item : α) : SimpleVector α :=
  let v1 := if v.size_ == v.capacity_ then
      Reserve v (if v.capacity_ == 0 then 1 else v.capacity_ * 2)
    else v
  ⟨v1.size_ + 1, v1.capacity_, v1.items_.set v1.size_ item⟩

/-- `PushBack(Type&& item)`: when full, build
`temp_vector(std::max(capacity_ + 1, capacity_ * 2))`, move the live
elements into its front, swap `capacity_` and `items_`; then
`*end() = std::move(item); ++size_;`. -/
def PushBackMove (v : SimpleVector α) (item : α) : SimpleVector α :=
  let v1 := if v.size_ == v.capacity_ then
      ⟨v.size_, max (v.capacity_ + 1) (v.capacity_ * 2),
        padTo (max (v.capacity_ + 1) (v.capacity_ * 2)) (v.items_.take v.size_)⟩
    else v
  ⟨v1.size_ + 1, v1.capacity_, v1.items_.set v1.size_ item⟩

/-- `Insert(ConstIterator pos, const Type& value)`: `pos` is `begin() +
index`; the function `assert`s `begin() <= pos && pos <= end()`, i.e.
`index ≤ size_`.  When full, a `temp_vector(std::max(capacity_ + 1,
capacity_ * 2))` receives the prefix `[0, index)`, then `value` at `index`,
then the suffix `[index, size_)` at `index + 1`, and is swapped in;
otherwise the suffix is shifted right in place by `std::copy_backward` and
`items_[index] = value`.  Then `++size_`; returns `begin() + index`. -/
def Insert (v : SimpleVector α) (pos : Nat) (value : α) : Outcome (SimpleVector α × Nat) :=
  if pos ≤ v.size_ then
    if v.size_ == v.capacity_ then
      Outcome.ok (⟨v.size_ + 1, max (v.capacity_ + 1) (v.capacity_ * 2),
        padTo (max (v.capacity_ + 1) (v.capacity_ * 2))
          (v.items_.take pos ++ [value] ++ (v.items_.take v.size_).drop pos)⟩, pos)
    else
      Outcome.ok (⟨v.size_ + 1, v.capacity_,
        v.items_.take pos ++ [value] ++ (v.items_.take v.size_).drop pos
          ++ v.items_.drop (v.size_ + 1)⟩, pos)
  else Outcome.assertTrap

/-- `PopBack()`: `assert(!IsEmpty()); --size_;`. -/
def PopBack (v : SimpleVector α) : Outcome (SimpleVector α) :=
  if v.IsEmpty then Outcome.assertTrap
  else Outcome.ok ⟨v.size_ - 1, v.capacity_, v.items_⟩

/-- `Erase(ConstIterator pos)`: `assert`s `begin() <= pos && pos < end()`,
i.e. `index < size_`; moves each element of `[index + 1, size_)` one slot
left (slot `size_ - 1` keeps its moved-from value), decrements `size_`, and
returns `items_.Get() + index`. -/
def Erase (v : SimpleVector α) (pos : Nat) : Outcome (SimpleVector α × Nat) :=
  if pos < v.size_ then
    Outcome.ok (⟨v.size_ - 1, v.capacity_,
      v.items_.take pos ++ (v.items_.take v.size_).drop (pos + 1)
        ++ v.items_.drop (v.size_ - 1)⟩, pos)
  else Outcome.assertTrap

/-- `swap(SimpleVector& other)`: exchanges `size_`, `capacity_`, `items_`. -/
def swapWith (a b : SimpleVector α) : SimpleVector α × SimpleVector α :=
  (⟨b.size_, b.capacity_, b.items_⟩, ⟨a.size_, a.capacity_, a.items_⟩)

/-- Copy assignment `operator=(const SimpleVector& rhs)`: guarded by
`this != &rhs` (the `aliased` flag); when distinct, copy-and-swap leaves
`*this` equal to `copyCtor rhs`. -/
def opAssign (lhs rhs : SimpleVector α) (aliased : Bool) : SimpleVector α :=
  if aliased then lhs else copyCtor rhs

/-- Move assignment `operator=(SimpleVector&& rhs)`: guarded by
`this != &rhs`; when distinct, `temp(std::move(rhs))` then `swap(temp)`
leaves `*this` holding `rhs`'s old members and `rhs` empty.  Returns
(new `*this`, new `rhs`). -/
def opAssignMove (lhs rhs : SimpleVector α) (aliased : Bool) :
    SimpleVector α × SimpleVector α :=
  if aliased then (lhs, rhs)
  else (⟨rhs.size_, rhs.capacity_, rhs.items_⟩, ⟨0, 0, []⟩)

/-- `At(size_t index)`: throws `std::out_of_range` when `index >= size_`,
otherwise returns `items_[index]`. -/
def At (v : SimpleVector α) (index : Nat) : Outcome α :=
  if v.size_ ≤ index then Outcome.thrownOutOfRange
  else Outcome.ok (slotGet v index)

/-- A call `v.At(index)` as (returned outcome, the object after the call):
the method reads but never writes the members. -/
def AtRun (v : SimpleVector α) (index : Nat) : Outcome α × SimpleVector α :=
  (At v index, v)

/-- `operator[](size_t index)`: `assert(index < size_)`, then the slot. -/
def indexGet (v : SimpleVector α) (index : Nat) : Outcome α :=
  if index < v.size_ then Outcome.ok (slotGet v index) else Outcome.assertTrap

/-- `Clear()`: `size_ = 0`, capacity and storage untouched. -/
def Clear (v : SimpleVector α) : SimpleVector α := ⟨0, v.capacity_, v.items_⟩

/-- `Resize(new_size)`: when `new_size > capacity_`, build
`temp_vec(std::max(new_size, capacity_ * 2))`, move the live elements into
its front and swap `items_` and `capacity_`; then assign `Type()` to every
slot of `[size_, new_size)` when growing; finally `size_ = new_size`. -/
def Resize (v : SimpleVector α) (new_size : Nat) : SimpleVector α :=
  let v1 : SimpleVector α := if v.capacity_ < new_size then
      ⟨v.size_, max new_size (v.capacity_ * 2),
        padTo (max new_size (v.capacity_ * 2)) (v.items_.take v.size_)⟩
    else v
  let items2 := if v1.size_ < new_size then
      v1.items_.take v1.size_ ++ List.replicate (new_size - v1.size_) (default : α)
        ++ v1.items_.drop new_size
    else v1.items_
  ⟨new_size, v1.capacity_, items2⟩

/-- `xs.foldl PushBack v`: a sequence of `PushBack` calls. -/
def appendAll (v : SimpleVector α) (xs : List α) : SimpleVector α :=
  xs.foldl PushBack v

end SimpleVector

/-- `std::lexicographical_compare` over two ranges with `operator<`:
true iff the first range is lexicographically less, a proper prefix being
less than the longer range. -/
def lexComp {α : Type} [LinearOrder α] : List α → List α → Bool
  | _, [] => false
  | [], _ :: _ => true
  | a :: as, b :: bs => if a < b then true else if b < a then false else lexComp as bs

namespace SimpleVector

variable {α : Type} [Inhabited α]

/-- `operator==`: identical objects short-circuit to true; otherwise equal
sizes and `std::equal` over the live ranges.  (For identical objects the
size-and-elements test also holds, so the shortcut is absorbed.) -/
def eqSV [DecidableEq α] (lhs rhs : SimpleVector α) : Bool :=
  lhs.GetSize == rhs.GetSize && decide (elems lhs = elems rhs)

/-- `operator!=`: `!(lhs == rhs)`. -/
def neSV [DecidableEq α] (lhs rhs : SimpleVector α) : Bool := !(eqSV lhs rhs)

/-- `operator<`: `std::lexicographical_compare` over the live ranges. -/
def ltSV [LinearOrder α] (lhs rhs : SimpleVector α) : Bool :=
  lexComp (elems lhs) (elems rhs)

/-- `operator>`: `rhs < lhs`. -/
def gtSV [LinearOrder α] (lhs rhs : SimpleVector α) : Bool := ltSV rhs lhs

/-- `operator<=`: `!(lhs > rhs)`. -/
def leSV [LinearOrder α] (lhs rhs : SimpleVector α) : Bool := !(gtSV lhs rhs)

/-- `operator>=`: `!(lhs < rhs)`. -/
def geSV [LinearOrder α] (lhs rhs : SimpleVector α) : Bool := !(ltSV lhs rhs)

/-- The capacity the spec's growth policy predicts after `n` appends starting
from an empty vector: each append finding `size == capacity` first applies
`newCapacity = max(capacity * 2, capacity + 1)`.  (Stated from the spec, to
be compared with the code's `PushBack`.) -/
def refCap : Nat → Nat
  | 0 => 0
  | n + 1 =>
    if n == refCap n then max (refCap n * 2) (refCap n + 1) else refCap n

end SimpleVector

open SimpleVector

/-- The allocation produced by `padTo n l` has exactly `n` slots when the
written prefix fits. -/
theorem padTo_length_of_le {α : Type} [Inhabited α] {l : List α} {n : Nat}
    (h : l.length ≤ n) : (padTo n l).length = n := by
  simp [padTo]; omega

/-- Claim C1: the spec says the copy's capacity equals the source's live
count, and indeed the copy constructor allocates only `other.size_` slots —
but it initialises the `capacity_` member from `other.capacity_`.  At the
failing input (a vector with `size_ = 1`, `capacity_ = 2`) the copy reports
capacity 2 while owning a single slot, breaking the class invariant, and the
next `PushBack` writes past the allocation, losing the element. -/
theorem C1_copy_capacity_bug :
    GetSize (Reserve (fromList [5]) 2 : SimpleVector Nat) = 1 ∧
    GetCapacity (Reserve (fromList [5]) 2 : SimpleVector Nat) = 2 ∧
    GetCapacity (copyCtor (Reserve (fromList [5]) 2) : SimpleVector Nat) = 2 ∧
    GetCapacity (copyCtor (Reserve (fromList [5]) 2) : SimpleVector Nat)
      ≠ GetSize (Reserve (fromList [5]) 2 : SimpleVector Nat) ∧
    (copyCtor (Reserve (fromList [5]) 2) : SimpleVector Nat).items_.length = 1 ∧
    ¬ wf (copyCtor (Reserve (fromList [5]) 2) : SimpleVector Nat) ∧
    elems (PushBack (copyCtor (Reserve (fromList [5]) 2)) 7) ≠ [5, 7] := by
  decide

/-- Claim C2 counterexample: inserting at position 1 into an empty vector
(position outside `[0, size] = [0, 0]`) hits the `assert` in `Insert` — a
precondition violation — and does not raise the recoverable
`std::out_of_range`. -/
theorem C2_insert_no_throw_cex :
    SimpleVector.Insert (empty : SimpleVector Nat) 1 5 = Outcome.assertTrap ∧
    SimpleVector.Insert (empty : SimpleVector Nat) 1 5 ≠ Outcome.thrownOutOfRange := by
  decide

/-- Claim C2 as amended: for every position strictly beyond `size`,
`Insert` fails its assertion (a trapped precondition violation, not a
recoverable `OutOfRange`), and no mutated container is produced. -/
theorem C2_insert_out_of_range_traps :
    ∀ (v : SimpleVector Nat) (pos value : Nat),
      v.GetSize < pos → SimpleVector.Insert v pos value = Outcome.assertTrap := by
  intro v pos value h
  unfold SimpleVector.Insert
  rw [if_neg (by simpa [GetSize] using Nat.not_le.mpr h)]

/-- Witness for `C2_insert_out_of_range_traps` at the empty vector and
position 1. -/
theorem C2_insert_out_of_range_traps_witness :
    (empty : SimpleVector Nat).GetSize < 1 ∧
    SimpleVector.Insert (empty : SimpleVector Nat) 1 5 = Outcome.assertTrap :=
  ⟨by decide, C2_insert_out_of_range_traps empty 1 5 (by decide)⟩

/-- Claim C4: `At(index)` throws `std::out_of_range` exactly when
`index >= size_`; otherwise it returns the element at `index`, and the call
leaves the container unchanged. -/
theorem C4_checked_at :
    ∀ (v : SimpleVector Nat) (index : Nat),
      (At v index = Outcome.thrownOutOfRange ↔ v.GetSize ≤ index) ∧
      (At v index = Outcome.ok (slotGet v index) ↔ index < v.GetSize) ∧
      (AtRun v index).2 = v := by
  intro v index
  unfold At AtRun GetSize
  by_cases h : v.size_ ≤ index
  · simp [h, Nat.not_lt.mpr h]
  · simp [h, Nat.lt_of_not_le h]

/-- Claim C9: self-assignment, by copy or by move, is guarded by the
`this != &rhs` test and leaves the vector unchanged (same size, capacity and
elements). -/
theorem C9_self_assignment :
    ∀ (v : SimpleVector Nat),
      opAssign v v true = v ∧ opAssignMove v v true = (v, v) := by
  intro v
  exact ⟨rfl, rfl⟩

/-- Claim C5: `Reserve(n)` with `n > capacity_` installs storage of exactly
`n` slots, preserves `size_` and the live elements, and keeps the class
invariant; with `n <= capacity_` it is a no-op; and a second `Reserve(n)`
with the same `n` changes nothing. -/
theorem C5_reserve :
    ∀ (v : SimpleVector Nat) (n : Nat), wf v →
      (v.GetCapacity < n →
        (Reserve v n).GetCapacity = n ∧
        (Reserve v n).GetSize = v.GetSize ∧
        elems (Reserve v n) = elems v ∧
        wf (Reserve v n)) ∧
      (n ≤ v.GetCapacity → Reserve v n = v) ∧
      Reserve (Reserve v n) n = Reserve v n := by
  intro v n hwf
  obtain ⟨hsc, hlc⟩ := hwf
  have hts : (v.items_.take v.size_).length = v.size_ := by
    simp [List.length_take]; omega
  refine ⟨?_, ?_, ?_⟩
  · intro hc
    simp only [GetCapacity] at hc
    unfold Reserve
    rw [if_pos hc]
    refine ⟨rfl, rfl, ?_, ?_⟩
    · unfold elems padTo
      simp only
      rw [List.take_append_of_le_length (by omega), List.take_take]
      simp
    · constructor
      · simpa [GetSize, GetCapacity] using hsc.trans (Nat.le_of_lt hc)
      · exact padTo_length_of_le (by omega)
  · intro hc
    simp only [GetCapacity] at hc
    unfold Reserve
    rw [if_neg (by omega)]
  · by_cases hc : v.capacity_ < n
    · unfold Reserve
      rw [if_pos hc]
      simp
    · unfold Reserve
      rw [if_neg hc, if_neg hc]

/-- Witness for `C5_reserve` at the two-element vector `[1, 2]` and
`n = 5`. -/
theorem C5_reserve_witness :
    wf (fromList [1, 2] : SimpleVector Nat) ∧
    Reserve (Reserve (fromList [1, 2] : SimpleVector Nat) 5) 5
      = Reserve (fromList [1, 2] : SimpleVector Nat) 5 :=
  ⟨by decide, (C5_reserve (fromList [1, 2]) 5 (by decide)).2.2⟩

/-- Live elements after `Resize(v, n)` on a well-formed vector: the first
`n` old live elements, followed by a default value in every newly exposed
slot. -/
theorem resize_elems {v : SimpleVector Nat} {n : Nat} (hwf : wf v) :
    elems (Resize v n)
      = (elems v).take n ++ List.replicate (n - v.size_) (default : Nat) := by
  obtain ⟨hsc, hlc⟩ := hwf
  have hts : (v.items_.take v.size_).length = v.size_ := by
    simp [List.length_take]; omega
  by_cases hc : v.capacity_ < n
  · have hsn : v.size_ < n := by omega
    have hTB : (v.items_.take v.size_
        ++ List.replicate (n - v.size_) (default : Nat)).length = n := by
      simp [hts]; omega
    simp only [Resize, elems, if_pos hc, if_pos hsn]
    rw [show padTo (max n (v.capacity_ * 2)) (v.items_.take v.size_)
        = v.items_.take v.size_
          ++ List.replicate (max n (v.capacity_ * 2) - v.size_) (default : Nat) by
      unfold padTo; rw [hts]]
    rw [List.take_left' hts]
    rw [List.take_left' hTB]
    rw [List.take_take, Nat.min_eq_right (by omega)]
  · by_cases hsn : v.size_ < n
    · have hTB : (v.items_.take v.size_
          ++ List.replicate (n - v.size_) (default : Nat)).length = n := by
        simp [hts]; omega
      simp only [Resize, elems, if_neg hc, if_pos hsn]
      rw [List.take_left' hTB]
      rw [List.take_take, Nat.min_eq_right (by omega)]
    · simp only [Resize, elems, if_neg hc, if_neg hsn]
      rw [List.take_take, Nat.min_eq_left (by omega),
        Nat.sub_eq_zero_of_le (by omega), List.replicate_zero, List.append_nil]

/-- Claim C10: `Clear()` then `Resize(n)` leaves all `n` live elements equal
to the default value `Type()`: the growing `Resize` default-constructs every
newly exposed slot in `[size_, new_size)`, so logically removed values are
never re-exposed with their old contents. -/
theorem C10_clear_resize :
    ∀ (v : SimpleVector Nat) (n : Nat), wf v →
      elems (Resize (Clear v) n) = List.replicate n (default : Nat) ∧
      (v.GetSize ≤ n →
        (elems (Resize v n)).drop v.GetSize
          = List.replicate (n - v.GetSize) (default : Nat)) := by
  intro v n hwf
  constructor
  · have hwfc : wf (Clear v) := by
      obtain ⟨h1, h2⟩ := hwf
      exact ⟨Nat.zero_le _, h2⟩
    rw [resize_elems hwfc]
    simp [Clear, elems]
  · intro hn
    simp only [GetSize] at hn ⊢
    obtain ⟨hsc, hlc⟩ := hwf
    have hel : (elems v).length = v.size_ := by
      simp [elems, List.length_take]; omega
    rw [resize_elems ⟨hsc, hlc⟩]
    rw [List.take_of_length_le (by rw [hel]; omega)]
    rw [List.drop_left' hel]

/-- Witness for `C10_clear_resize` at the vector `[7, 8]` and `n = 4`. -/
theorem C10_clear_resize_witness :
    wf (fromList [7, 8] : SimpleVector Nat) ∧
    (fromList [7, 8] : SimpleVector Nat).GetSize ≤ 4 ∧
    elems (Resize (Clear (fromList [7, 8])) 4) = List.replicate 4 (default : Nat) ∧
    (elems (Resize (fromList [7, 8]) 4)).drop (fromList [7, 8] : SimpleVector Nat).GetSize
      = List.replicate (4 - (fromList [7, 8] : SimpleVector Nat).GetSize) (default : Nat) :=
  ⟨by decide, by decide,
    (C10_clear_resize (fromList [7, 8]) 4 (by decide)).1,
    (C10_clear_resize (fromList [7, 8]) 4 (by decide)).2 (by decide)⟩

/-- One `PushBack` step preserves the class invariant and drives the
capacity along the spec's growth recurrence. -/
theorem pushBack_step {v : SimpleVector Nat} {x : Nat} (hwf : wf v)
    (hcap : v.capacity_ = refCap v.size_) :
    (PushBack v x).size_ = v.size_ + 1 ∧
    (PushBack v x).capacity_ = refCap (v.size_ + 1) ∧
    wf (PushBack v x) := by
  obtain ⟨s, c, l⟩ := v
  obtain ⟨hsc, hlc⟩ := hwf
  dsimp only at hsc hlc hcap ⊢
  by_cases hfull : s = c
  · by_cases h0 : c = 0
    · subst h0
      subst hfull
      have hl : l = [] := List.eq_nil_of_length_eq_zero hlc
      subst hl
      simp [PushBack, Reserve, refCap, padTo, wf]
    · have hgc : c < c * 2 := by omega
      have hrc : refCap (s + 1) = c * 2 := by
        unfold refCap
        rw [if_pos (beq_iff_eq.mpr (hfull.trans hcap)), ← hcap]
        rw [max_eq_left (by omega)]
      have hpb : PushBack ⟨s, c, l⟩ x
          = ⟨s + 1, c * 2, (padTo (c * 2) (l.take s)).set s x⟩ := by
        simp only [PushBack, Reserve, beq_iff_eq, if_pos hfull, if_neg h0,
          if_pos hgc]
      rw [hpb]
      have hplen : ((padTo (c * 2) (l.take s)).set s x).length = c * 2 := by
        rw [List.length_set]
        exact padTo_length_of_le (by rw [List.length_take]; omega)
      refine ⟨rfl, ?_, ?_, ?_⟩
      · exact hrc.symm
      · dsimp only; omega
      · exact hplen
  · have hrc : refCap (s + 1) = refCap s := by
      simp only [refCap]
      rw [if_neg (show ¬ (s == refCap s) = true by
        rw [beq_iff_eq, ← hcap]; exact hfull)]
    have hpb : PushBack ⟨s, c, l⟩ x = ⟨s + 1, c, l.set s x⟩ := by
      simp only [PushBack, beq_iff_eq, if_neg hfull]
    rw [hpb]
    refine ⟨rfl, ?_, ?_, ?_⟩
    · dsimp only; rw [hrc]; exact hcap
    · dsimp only; omega
    · dsimp only; rw [List.length_set]; exact hlc

/-- Running `PushBack` over a whole list keeps the invariant: the size counts
the appends and the capacity follows the recurrence `refCap`. -/
theorem appendAll_inv :
    ∀ (xs : List Nat) (v : SimpleVector Nat),
      wf v → v.capacity_ = refCap v.size_ →
      (appendAll v xs).size_ = v.size_ + xs.length ∧
      (appendAll v xs).capacity_ = refCap (v.size_ + xs.length) ∧
      wf (appendAll v xs) := by
  intro xs
  induction xs with
  | nil =>
    intro v hwf hcap
    exact ⟨rfl, by simpa using hcap, hwf⟩
  | cons x xs ih =>
    intro v hwf hcap
    have hstep := pushBack_step (x := x) hwf hcap
    have hrest := ih (PushBack v x) hstep.2.2 (by rw [hstep.2.1, hstep.1])
    have hfold : appendAll v (x :: xs) = appendAll (PushBack v x) xs := rfl
    refine ⟨?_, ?_, hfold ▸ hrest.2.2⟩
    · rw [hfold, hrest.1, hstep.1, List.length_cons]
      omega
    · rw [hfold, hrest.2.1, hstep.1, List.length_cons]
      congr 1
      omega

/-- The two `PushBack` overloads produce the same state:
`capacity_ == 0 ? 1 : capacity_ * 2` equals
`std::max(capacity_ + 1, capacity_ * 2)` on every `capacity_`. -/
theorem pushBackMove_eq_pushBack :
    ∀ (v : SimpleVector Nat) (x : Nat), PushBackMove v x = PushBack v x := by
  intro v x
  by_cases hfull : v.size_ = v.capacity_
  · have hgc : v.capacity_ < if v.capacity_ = 0 then 1 else v.capacity_ * 2 := by
      by_cases h0 : v.capacity_ = 0
      · simp [h0]
      · rw [if_neg h0]; omega
    have hm : max (v.capacity_ + 1) (v.capacity_ * 2)
        = if v.capacity_ = 0 then 1 else v.capacity_ * 2 := by
      by_cases h0 : v.capacity_ = 0
      · simp [h0]
      · rw [if_neg h0, max_eq_right (by omega)]
    simp only [PushBackMove, PushBack, Reserve, beq_iff_eq, if_pos hfull,
      if_pos hgc, hm]
  · simp only [PushBackMove, PushBack, beq_iff_eq, if_neg hfull]

/-- Claim C3: after any `N` appends from the empty vector the size is `N`
and the capacity is exactly what repeatedly applying the growth policy
`newCapacity = max(capacity * 2, capacity + 1)` at each exhaustion predicts
(`refCap`); in particular capacities 1, 2, 4 after 1, 2, 3 appends, and the
move overload of `PushBack` grows identically to the copy overload. -/
theorem C3_growth_policy :
    ∀ (xs : List Nat),
      (appendAll (empty : SimpleVector Nat) xs).GetSize = xs.length ∧
      (appendAll (empty : SimpleVector Nat) xs).GetCapacity = refCap xs.length ∧
      refCap 1 = 1 ∧ refCap 2 = 2 ∧ refCap 3 = 4 ∧
      (∀ (v : SimpleVector Nat) (x : Nat), PushBackMove v x = PushBack v x) := by
  intro xs
  have h := appendAll_inv xs empty ⟨Nat.le_refl 0, rfl⟩ rfl
  refine ⟨?_, ?_, by decide, by decide, by decide, pushBackMove_eq_pushBack⟩
  · simpa [GetSize, empty] using h.1
  · simpa [GetCapacity, empty] using h.2.1

/-- Writing `x` into the first padding slot of a padded buffer equals
padding the buffer extended with `x`: the "copy elements then place the new
value" layout of `Insert` matches the "pad then write at `end()`" layout of
`PushBack`. -/
theorem padTo_set_at_length {α : Type} [Inhabited α] {l : List α} {s m : Nat}
    (h : l.length = s) (hm : s < m) (x : α) :
    (padTo m l).set s x = padTo m (l ++ [x]) := by
  unfold padTo
  rw [List.set_append_right _ _ (by omega)]
  rw [h, Nat.sub_self]
  rw [show m - s = (m - s - 1) + 1 by omega, List.replicate_succ]
  rw [List.set_cons_zero]
  simp [List.append_assoc, Nat.sub_sub, h]

/-- Claim C6: `Insert` at position `size()` yields exactly the state
`PushBack(value)` produces — the same elements, the same size and the same
capacity — and returns the old size as the inserted position. -/
theorem C6_insert_at_end :
    ∀ (v : SimpleVector Nat) (x : Nat), wf v →
      SimpleVector.Insert v v.GetSize x = Outcome.ok (PushBack v x, v.GetSize) := by
  intro v x hwf
  obtain ⟨s, c, l⟩ := v
  obtain ⟨hsc, hlc⟩ := hwf
  dsimp only at hsc hlc
  simp only [GetSize]
  have hts : (l.take s).length = s := by
    rw [List.length_take]; omega
  have hds : (l.take s).drop s = [] := List.drop_of_length_le (by omega)
  by_cases hfull : s = c
  · have h0c : c < if c = 0 then 1 else c * 2 := by
      by_cases h0 : c = 0
      · simp [h0]
      · rw [if_neg h0]; omega
    have hg : (if c = 0 then 1 else c * 2) = max (c + 1) (c * 2) := by
      by_cases h0 : c = 0
      · simp [h0]
      · rw [if_neg h0, max_eq_right (by omega)]
    have h0m : c < max (c + 1) (c * 2) := lt_max_of_lt_left (Nat.lt_succ_self c)
    have hins : SimpleVector.Insert ⟨s, c, l⟩ s x
        = Outcome.ok (⟨s + 1, max (c + 1) (c * 2),
            padTo (max (c + 1) (c * 2)) (l.take s ++ [x] ++ (l.take s).drop s)⟩, s) := by
      simp only [SimpleVector.Insert, beq_iff_eq, if_pos (Nat.le_refl s), if_pos hfull]
    have hpush : PushBack ⟨s, c, l⟩ x
        = ⟨s + 1, max (c + 1) (c * 2),
            (padTo (max (c + 1) (c * 2)) (l.take s)).set s x⟩ := by
      simp only [PushBack, Reserve, beq_iff_eq, hg, if_pos hfull, if_pos h0m]
    rw [hins, hpush]
    rw [hds, List.append_nil]
    rw [padTo_set_at_length hts (by omega) x]
  · have hins : SimpleVector.Insert ⟨s, c, l⟩ s x
        = Outcome.ok (⟨s + 1, c,
            l.take s ++ [x] ++ (l.take s).drop s ++ l.drop (s + 1)⟩, s) := by
      simp only [SimpleVector.Insert, beq_iff_eq, if_pos (Nat.le_refl s), if_neg hfull]
    have hpush : PushBack ⟨s, c, l⟩ x = ⟨s + 1, c, l.set s x⟩ := by
      simp only [PushBack, beq_iff_eq, if_neg hfull]
    rw [hins, hpush]
    rw [hds, List.append_nil]
    rw [List.set_eq_take_cons_drop x (by omega)]
    simp [List.append_assoc]

/-- Witness for `C6_insert_at_end` at the vector `[1, 2, 3]` (full: size 3 =
capacity 3). -/
theorem C6_insert_at_end_witness :
    wf (fromList [1, 2, 3] : SimpleVector Nat) ∧
    SimpleVector.Insert (fromList [1, 2, 3] : SimpleVector Nat)
        (fromList [1, 2, 3] : SimpleVector Nat).GetSize 9
      = Outcome.ok (PushBack (fromList [1, 2, 3]) 9,
          (fromList [1, 2, 3] : SimpleVector Nat).GetSize) :=
  ⟨by decide, C6_insert_at_end (fromList [1, 2, 3]) 9 (by decide)⟩

/-- Re-inserting the element read at index `i` between the prefix `[0, i)`
and the suffix `[i+1, ...)` reassembles the original list. -/
theorem take_getD_drop {e : List Nat} {i : Nat} (h : i < e.length) (d : Nat) :
    e.take i ++ [e.getD i d] ++ e.drop (i + 1) = e := by
  rw [List.getD_eq_getElem _ _ h]
  rw [List.append_assoc, List.singleton_append]
  rw [List.getElem_cons_drop _ _ h, List.take_append_drop]

/-- Claim C7: for a valid position `i`, `Erase` at `i` followed by `Insert`
of the removed value at `i` restores the original live sequence — the same
size and elementwise-equal values. -/
theorem C7_erase_insert :
    ∀ (v : SimpleVector Nat) (i : Nat), wf v → i < v.GetSize →
      ∃ w, Erase v i = Outcome.ok (w, i) ∧
        ∃ w2, SimpleVector.Insert w i (slotGet v i) = Outcome.ok (w2, i) ∧
          elems w2 = elems v ∧ w2.GetSize = v.GetSize := by
  intro v i hwf hi
  obtain ⟨s, c, l⟩ := v
  obtain ⟨hsc, hlc⟩ := hwf
  dsimp only at hsc hlc
  simp only [GetSize] at hi ⊢
  have hil : i < l.length := by omega
  have hes : (l.take s).length = s := by rw [List.length_take]; omega
  have ht1 : (l.take i).length = i := by rw [List.length_take]; omega
  have hA : ((l.take s).drop (i + 1)).length = s - i - 1 := by
    rw [List.length_drop, List.length_take]; omega
  have hER : Erase ⟨s, c, l⟩ i = Outcome.ok (⟨s - 1, c,
      l.take i ++ (l.take s).drop (i + 1) ++ l.drop (s - 1)⟩, i) := by
    simp only [Erase, if_pos hi]
  have hnf : ¬ (s - 1 = c) := by omega
  have hle : i ≤ s - 1 := by omega
  set E := l.take i ++ (l.take s).drop (i + 1) ++ l.drop (s - 1) with hE
  have hXlen : (l.take i ++ (l.take s).drop (i + 1)).length = s - 1 := by
    rw [List.length_append, ht1, hA]; omega
  have hIN : SimpleVector.Insert (⟨s - 1, c, E⟩ : SimpleVector Nat) i
        (slotGet ⟨s, c, l⟩ i)
      = Outcome.ok (⟨(s - 1) + 1, c,
          E.take i ++ [slotGet ⟨s, c, l⟩ i] ++ (E.take (s - 1)).drop i
            ++ E.drop ((s - 1) + 1)⟩, i) := by
    simp only [SimpleVector.Insert, beq_iff_eq, if_pos hle, if_neg hnf]
  have hEtake_i : E.take i = l.take i := by
    rw [hE]
    rw [List.take_append_of_le_length (by rw [hXlen]; omega)]
    rw [List.take_append_of_le_length (by omega)]
    rw [List.take_take, Nat.min_self]
  have hEtake_s1 : E.take (s - 1) = l.take i ++ (l.take s).drop (i + 1) := by
    rw [hE]; exact List.take_left' hXlen
  have hdrop_i : (l.take i ++ (l.take s).drop (i + 1)).drop i
      = (l.take s).drop (i + 1) := List.drop_left' ht1
  have hEdrop : E.drop ((s - 1) + 1) = l.drop s := by
    rw [hE]
    rw [List.drop_append_eq_append_drop]
    rw [List.drop_of_length_le (by rw [hXlen]; omega)]
    rw [List.nil_append, hXlen]
    rw [show (s - 1) + 1 - (s - 1) = 1 by omega]
    rw [List.drop_drop]
    congr 1
    omega
  refine ⟨_, hER, _, hIN, ?_, ?_⟩
  · simp only [elems]
    rw [hEtake_i, hEtake_s1, hdrop_i, hEdrop]
    rw [show (s - 1) + 1 = s by omega]
    rw [List.take_left' (by simp; omega)]
    have hgd : (l.take s).getD i (default : Nat) = l.getD i (default : Nat) := by
      rw [List.getD_eq_getElem _ _ (show i < (l.take s).length by rw [hes]; omega),
        List.getD_eq_getElem _ _ hil]
      simp
    have hmain := take_getD_drop
      (show i < (l.take s).length by rw [hes]; omega) (default : Nat)
    rw [List.take_take, Nat.min_eq_left (by omega), hgd] at hmain
    simpa [slotGet] using hmain
  · dsimp only [GetSize]
    omega

/-- Witness for `C7_erase_insert` at the vector `[1, 2, 3]` and `i = 1`. -/
theorem C7_erase_insert_witness :
    wf (fromList [1, 2, 3] : SimpleVector Nat) ∧
    (∃ w, Erase (fromList [1, 2, 3] : SimpleVector Nat) 1 = Outcome.ok (w, 1) ∧
      ∃ w2, SimpleVector.Insert w 1
            (slotGet (fromList [1, 2, 3] : SimpleVector Nat) 1)
          = Outcome.ok (w2, 1) ∧
        elems w2 = elems (fromList [1, 2, 3] : SimpleVector Nat) ∧
        w2.GetSize = (fromList [1, 2, 3] : SimpleVector Nat).GetSize) :=
  ⟨by decide, C7_erase_insert (fromList [1, 2, 3]) 1 (by decide) (by decide)⟩

/-- The embedding of `std::lexicographical_compare` agrees with the standard
lexicographic strict order on lists (`List.Lex` with `<`). -/
theorem lexComp_iff_lex {α : Type} [LinearOrder α] :
    ∀ (p q : List α), lexComp p q = true ↔ List.Lex (· < ·) p q := by
  intro p
  induction p with
  | nil =>
    intro q
    cases q with
    | nil =>
      simp only [lexComp, Bool.false_eq_true, false_iff]
      exact List.Lex.not_nil_right _ _
    | cons b bs =>
      simp only [lexComp, true_iff]
      exact List.Lex.nil
  | cons a as ih =>
    intro q
    cases q with
    | nil =>
      simp only [lexComp, Bool.false_eq_true, false_iff]
      exact List.Lex.not_nil_right _ _
    | cons b bs =>
      by_cases hab : a < b
      · simp only [lexComp, if_pos hab, true_iff]
        exact List.Lex.rel hab
      · by_cases hba : b < a
        · simp only [lexComp, if_neg hab, if_pos hba, Bool.false_eq_true, false_iff]
          intro h
          cases h with
          | rel h => exact hab h
          | cons h => exact lt_irrefl a hba
        · have heq : a = b := le_antisymm (not_lt.mp hba) (not_lt.mp hab)
          subst heq
          simp only [lexComp, if_neg hab, if_neg hba]
          rw [ih bs]
          constructor
          · exact List.Lex.cons
          · intro h
            cases h with
            | rel h => exact absurd h (lt_irrefl a)
            | cons h => exact h

/-- Claim C8: `operator<` holds exactly when the live elements of the left
vector precede those of the right in the standard lexicographic sequence
order (a proper prefix precedes the longer sequence); the derived relations
`!=`, `>`, `<=`, `>=` are literally the stated combinations of `==` and the
one primitive `<`; and `[1,2] < [1,2,3] < [2]`. -/
theorem C8_ordering :
    (∀ a b : SimpleVector Nat,
      (ltSV a b = true ↔ List.Lex (· < ·) (elems a) (elems b)) ∧
      neSV a b = !(eqSV a b) ∧
      gtSV a b = ltSV b a ∧
      leSV a b = !(ltSV b a) ∧
      geSV a b = !(ltSV a b)) ∧
    ltSV (fromList [1, 2]) (fromList [1, 2, 3]) = true ∧
    ltSV (fromList [1, 2, 3] : SimpleVector Nat) (fromList [2]) = true := by
  refine ⟨?_, by decide, by decide⟩
  intro a b
  exact ⟨lexComp_iff_lex (elems a) (elems b), rfl, rfl, rfl, rfl⟩
